import Mathlib

/-!
# Verification of the mcl multi-caret text editor core

Shallow embedding of the final ("most complete") variant of the editor core
(`mcl::Selection`, `mcl::Transaction`, `mcl::TextDocument` with its
`GlyphArrangementArray` line store).  JUCE strings are embedded as `List Char`,
`juce::Point<int>` as a pair of `Int`s (`x` = row, `y` = column), and the JUCE
container/string library calls used by the code (`substring`, `lastIndexOf`,
`StringArray::fromLines`, `Array::removeRange`, `Array::insert`) are embedded
with their documented clamping behaviour.
-/

set_option maxHeartbeats 1600000

namespace Mcl

/-- `juce::Point<int>` as used by the editor: `x` is the row, `y` the column. -/
structure Point where
  x : Int
  y : Int
deriving DecidableEq, Repr

/-- `mcl::Selection`: a head/tail pair of indices. -/
structure Selection where
  head : Point
  tail : Point
deriving DecidableEq, Repr

namespace Selection

/-- `Selection::isOriented`: `!(head.x > tail.x || (head.x == tail.x && head.y > tail.y))`. -/
def isOriented (s : Selection) : Bool :=
  !(s.head.x > s.tail.x || (s.head.x == s.tail.x && s.head.y > s.tail.y))

/-- `Selection::isSingular`: `head == tail`. -/
def isSingular (s : Selection) : Bool :=
  s.head == s.tail

/-- `Selection::isSingleLine`: `head.x == tail.x`. -/
def isSingleLine (s : Selection) : Bool :=
  s.head.x == s.tail.x

/-- `Selection::swapped`. -/
def swapped (s : Selection) : Selection :=
  ⟨s.tail, s.head⟩

/-- `Selection::oriented`. -/
def oriented (s : Selection) : Selection :=
  if s.isOriented then s else s.swapped

/-- `Selection::pull (Point<int>& index)`: the index-shift performed when this
selection's text disappears.  The C++ mutates `index.y` first and then
`index.x`; the second guard reads the untouched `index.x`, so the two updates
are independent and are written here simultaneously. -/
def pull (sel : Selection) (index : Point) : Point :=
  let S := sel.oriented
  let y :=
    if S.tail.x = index.x ∧ S.head.y ≤ index.y then
      if S.head.x = S.tail.x then index.y - (S.tail.y - S.head.y)
      else index.y - S.tail.y
    else index.y
  let x := if S.head.x ≤ index.x then index.x - (S.tail.x - S.head.x) else index.x
  ⟨x, y⟩

/-- `Selection::push (Point<int>& index)`: the mirror image of `pull`. -/
def push (sel : Selection) (index : Point) : Point :=
  let S := sel.oriented
  let y :=
    if S.head.x = index.x ∧ S.head.y ≤ index.y then
      if S.head.x = S.tail.x then index.y + (S.tail.y - S.head.y)
      else index.y + S.tail.y
    else index.y
  let x := if S.head.x ≤ index.x then index.x + (S.tail.x - S.head.x) else index.x
  ⟨x, y⟩

/-- `Selection::pullBy`: apply `disappearingSelection.pull` to both endpoints. -/
def pullBy (s : Selection) (disappearingSelection : Selection) : Selection :=
  ⟨disappearingSelection.pull s.head, disappearingSelection.pull s.tail⟩

/-- `Selection::pushBy`: apply `appearingSelection.push` to both endpoints. -/
def pushBy (s : Selection) (appearingSelection : Selection) : Selection :=
  ⟨appearingSelection.push s.head, appearingSelection.push s.tail⟩

/-- `Selection::Selection (const String& content)`: scan the string counting
newlines (`rowSpan`) and remembering the offset just past the last newline
(`lastLineStart`); the selection is `(0,0) .. (rowSpan, length - lastLineStart)`.
The C++ while-loop is a left fold over the characters carrying
`(rowSpan, n, lastLineStart)`. -/
def ofContent (content : List Char) : Selection :=
  let st := content.foldl
    (fun (acc : Int × Int × Int) c =>
      let (rowSpan, n, lastLineStart) := acc
      if c = '\n' then (rowSpan + 1, n + 1, n + 1) else (rowSpan, n + 1, lastLineStart))
    (0, 0, 0)
  ⟨⟨0, 0⟩, ⟨st.1, (content.length : Int) - st.2.2⟩⟩

/-- `Selection::startingFrom (Point<int> index)`: pull the selection back to the
origin, then push it forward to `index`. -/
def startingFrom (s : Selection) (index : Point) : Selection :=
  let s1 := s.pullBy ⟨⟨0, 0⟩, if s.isOriented then s.head else s.tail⟩
  s1.pushBy ⟨⟨0, 0⟩, index⟩

end Selection

/-! ## JUCE string / array library operations (with their documented clamping) -/

/-- `juce::String::substring (start, end)`: characters in `[start, end)`,
with `start` clamped up to 0 and `end` clamped into the string; empty when
`end <= start`. -/
def substr (l : List Char) (i j : Int) : List Char :=
  (l.take j.toNat).drop i.toNat

/-- `juce::String::substring (start)`: from (clamped) `start` to the end. -/
def substrFrom (l : List Char) (i : Int) : List Char :=
  l.drop i.toNat

/-- `juce::String::getLastCharacter`: last character, or code 0 when empty. -/
def lastChar (l : List Char) : Char :=
  l.getLastD (Char.ofNat 0)

/-- `juce::String::lastIndexOf ("\n")`: index of the last newline, `-1` if none. -/
def lastIndexOfNL : List Char → Int
  | [] => -1
  | c :: cs =>
    let r := lastIndexOfNL cs
    if 0 ≤ r then r + 1
    else if c = '\n' then 0 else -1

/-- The raw newline split underlying `juce::StringArray::addLines` for text
free of carriage returns, before the tail guard: one entry per
newline-separated segment, keeping a trailing empty segment (`"abc\n"` gives
`["abc", ""]`).  Always non-empty.  `fromLines` below applies the guard. -/
def splitNL : List Char → List (List Char)
  | [] => [[]]
  | c :: rest =>
    if c = '\n' then [] :: splitNL rest
    else
      match splitNL rest with
      | [] => [[c]]
      | l :: ls => (c :: l) :: ls

/-- `juce::StringArray::fromLines` / `addLines`: every segment before a line
break is added (empty or not), but the final segment is added only when it is
non-empty — the tail guard that makes `fromLines ""` an empty array and
`fromLines "abc\n"` just `["abc"]`. -/
def fromLines (cs : List Char) : List (List Char) :=
  if (splitNL cs).getLast? = some [] then (splitNL cs).dropLast else splitNL cs

/-- `juce::Array::removeRange (startIndex, numberToRemove)`: both indices are
clamped into `[0, size]`; removes the elements in `[start, end)`. -/
def removeRange (xs : List (List Char)) (startIndex num : Int) : List (List Char) :=
  let s : Int := min (max startIndex 0) xs.length
  let e : Int := min (max (s + num) 0) xs.length
  xs.take s.toNat ++ xs.drop (max s e).toNat

/-- `juce::Array::insert (indexToInsertAt, newElement)`: a negative index or an
index beyond the size appends at the end. -/
def insertAt (xs : List (List Char)) (index : Int) (a : List Char) : List (List Char) :=
  if index < 0 ∨ (xs.length : Int) < index then xs ++ [a]
  else xs.take index.toNat ++ a :: xs.drop index.toNat

/-- `juce::CharacterFunctions::isWhitespace`:
`c == ' ' || (c <= 13 && c >= 9)`. -/
def isWhitespace (c : Char) : Bool :=
  c = ' ' || (c.toNat ≤ 13 && 9 ≤ c.toNat)

/-- `juce::KeyPress::tabKey` (the tab character, code 9). -/
def tabKeyCode : Char := '\t'

/-- `juce::KeyPress::backspaceKey` (platform key code; modelled as code 8). -/
def backspaceKeyCode : Char := Char.ofNat 8

/-- `juce::KeyPress::deleteKey` (platform key code; modelled as code 127). -/
def deleteKeyCode : Char := Char.ofNat 127

/-! ## TextDocument -/

/-- `mcl::Transaction::Direction`. -/
inductive Direction where
  | forward
  | reverse
deriving DecidableEq, Repr

/-- Flip a direction (`t.direction == D::forward ? D::reverse : D::forward`). -/
def Direction.flip : Direction → Direction
  | .forward => .reverse
  | .reverse => .forward

/-- `mcl::Transaction` (the float `affectedArea` rectangle is a rendering-layer
invalidation hint and is not part of the buffer state modelled here). -/
structure Transaction where
  selection : Selection
  content : List Char
  direction : Direction
deriving DecidableEq, Repr

/-- `mcl::TextDocument` buffer state: the `GlyphArrangementArray` line store
(each entry's string) and the selection list. -/
structure TextDocument where
  lines : List (List Char)
  selections : List Selection
deriving DecidableEq, Repr

/-- `GlyphArrangementArray::operator[]`: the row's string, or the empty string
when the index is out of range. -/
def getLineStr (lines : List (List Char)) (i : Int) : List Char :=
  if i < 0 then [] else lines.getD i.toNat []

namespace TextDocument

/-- `TextDocument::getNumRows`. -/
def getNumRows (d : TextDocument) : Int :=
  d.lines.length

/-- `TextDocument::getNumColumns (row)`: `lines[row].length()`. -/
def getNumColumns (d : TextDocument) (row : Int) : Int :=
  (getLineStr d.lines row).length

/-- `TextDocument::getEnd`: the sentinel `(numRows, 0)`. -/
def getEnd (d : TextDocument) : Point :=
  ⟨d.getNumRows, 0⟩

/-- `TextDocument::next (Point<int>& index)`: returns the C++ boolean result
together with the updated index (unchanged when the result is false). -/
def next (d : TextDocument) (index : Point) : Bool × Point :=
  if index.y < d.getNumColumns index.x then (true, ⟨index.x, index.y + 1⟩)
  else if index.x < d.getNumRows then (true, ⟨index.x + 1, 0⟩)
  else (false, index)

/-- `TextDocument::prev (Point<int>& index)`. -/
def prev (d : TextDocument) (index : Point) : Bool × Point :=
  if 0 < index.y then (true, ⟨index.x, index.y - 1⟩)
  else if 0 < index.x then (true, ⟨index.x - 1, d.getNumColumns (index.x - 1)⟩)
  else (false, index)

/-- `TextDocument::nextRow (Point<int>& index)`. -/
def nextRow (d : TextDocument) (index : Point) : Bool × Point :=
  if index.x < d.getNumRows then
    (true, ⟨index.x + 1, min index.y (d.getNumColumns (index.x + 1))⟩)
  else (false, index)

/-- `TextDocument::prevRow (Point<int>& index)`. -/
def prevRow (d : TextDocument) (index : Point) : Bool × Point :=
  if 0 < index.x then
    (true, ⟨index.x - 1, min index.y (d.getNumColumns (index.x - 1))⟩)
  else (false, index)

/-- `TextDocument::getCharacter`: a virtual `'\n'` at the end sentinel and at
the end of each line, otherwise the character at the index. -/
def getCharacter (d : TextDocument) (index : Point) : Char :=
  if index = d.getEnd ∨ index.y = ((getLineStr d.lines index.x).length : Int) then '\n'
  else (getLineStr d.lines index.x).getD index.y.toNat (Char.ofNat 0)

/-- Total character count of the document including one virtual newline per
row; an upper bound for the number of `next` steps any in-bounds traversal can
make (used only to provision fuel for the word-navigation loops). -/
def docLength (d : TextDocument) : Nat :=
  (d.lines.map (fun l => l.length + 1)).sum

/-- The skip-leading-whitespace loop of `nextWord`:
`while (next (index) && isWhitespace (getCharacter (index))) {}`. -/
def nwSkipWs (d : TextDocument) : Nat → Point → Point
  | 0, i => i
  | fuel + 1, i =>
    let (ok, i') := d.next i
    if ok ∧ isWhitespace (d.getCharacter i') then nwSkipWs d fuel i' else i'

/-- The advance loop of `nextWord`:
`while (next (index)) { if (isWhitespace (getCharacter (index))) return true; }`. -/
def nwAdvance (d : TextDocument) : Nat → Point → Bool × Point
  | 0, i => (false, i)
  | fuel + 1, i =>
    let (ok, i') := d.next i
    if ok then
      if isWhitespace (d.getCharacter i') then (true, i')
      else nwAdvance d fuel i'
    else (false, i')

/-- `TextDocument::nextWord`.  The two while-loops are run with fuel
`docLength + 2`, which exceeds the number of `next` steps available from any
in-bounds index, so the fuel never runs out on the loops' actual domain. -/
def nextWord (d : TextDocument) (index : Point) : Bool × Point :=
  if index = d.getEnd then (false, index)
  else
    let fuel := d.docLength + 2
    let i1 := if isWhitespace (d.getCharacter index) then nwSkipWs d fuel index else index
    nwAdvance d fuel i1

/-- The skip-whitespace loop of `prevWord`:
`while (prev (index) && isWhitespace (getCharacter (index))) {}`. -/
def pwSkipWs (d : TextDocument) : Nat → Point → Point
  | 0, i => i
  | fuel + 1, i =>
    let (ok, i') := d.prev i
    if ok ∧ isWhitespace (d.getCharacter i') then pwSkipWs d fuel i' else i'

/-- The advance loop of `prevWord`: `while (prev (index)) { if (isWhitespace
(getCharacter (index))) { next (index); return true; } }`. -/
def pwAdvance (d : TextDocument) : Nat → Point → Bool × Point
  | 0, i => (false, i)
  | fuel + 1, i =>
    let (ok, i') := d.prev i
    if ok then
      if isWhitespace (d.getCharacter i') then (true, (d.next i').2)
      else pwAdvance d fuel i'
    else (false, i')

/-- `TextDocument::prevWord`. -/
def prevWord (d : TextDocument) (index : Point) : Bool × Point :=
  let (ok0, i0) := d.prev index
  if ok0 then
    let fuel := d.docLength + 2
    let i1 := if isWhitespace (d.getCharacter i0) then pwSkipWs d fuel i0 else i0
    pwAdvance d fuel i1
  else (false, i0)

end TextDocument

/-- `Selection::horizontallyMaximized (const TextDocument&)`: push the columns
to line start/end, away from the orientation. -/
def Selection.horizontallyMaximized (s : Selection) (d : TextDocument) : Selection :=
  if s.isOriented then
    ⟨⟨s.head.x, 0⟩, ⟨s.tail.x, d.getNumColumns s.tail.x⟩⟩
  else
    ⟨⟨s.head.x, d.getNumColumns s.head.x⟩, ⟨s.tail.x, 0⟩⟩

namespace TextDocument

/-- `mcl::TextDocument::Navigation`. -/
inductive Navigation where
  | identity
  | wholeDocument
  | wholeLine
  | wholeWord
  | forwardByChar
  | backwardByChar
  | forwardByWord
  | backwardByWord
  | forwardByLine
  | backwardByLine
  | toLineStart
  | toLineEnd
deriving DecidableEq, Repr

/-- `selections[index]` on the `juce::Array`: a default-constructed selection
when the index is out of range. -/
def getStoredSelection (d : TextDocument) (index : Int) : Selection :=
  if 0 ≤ index ∧ index.toNat < d.selections.length then
    d.selections.getD index.toNat ⟨⟨0, 0⟩, ⟨0, 0⟩⟩
  else ⟨⟨0, 0⟩, ⟨0, 0⟩⟩

/-- The `post` lambda of `TextDocument::getSelection`: step the head back off
the end sentinel, and collapse the tail onto the head unless `fixingTail`. -/
def post (d : TextDocument) (fixingTail : Bool) (s : Selection) : Selection :=
  let s := if s.head = d.getEnd then { s with head := (d.prev s.head).2 } else s
  if fixingTail then s else { s with tail := s.head }

/-- The middle rows appended by `getSelectionContent`'s for-loop
(`content += lines[row] + "\n"` for `row` in `[x0, x0 + count)`). -/
def midRows (lines : List (List Char)) (x0 : Int) (count : Nat) : List Char :=
  ((List.range count).map (fun (k : Nat) => getLineStr lines (x0 + (k : Int)) ++ ['\n'])).flatten

/-- `TextDocument::getSelectionContent`. -/
def getSelectionContent (d : TextDocument) (sel : Selection) : List Char :=
  let s := sel.oriented
  if s.isSingleLine then
    substr (getLineStr d.lines s.head.x) s.head.y s.tail.y
  else
    substrFrom (getLineStr d.lines s.head.x) s.head.y ++ ['\n'] ++
      midRows d.lines (s.head.x + 1) (s.tail.x - s.head.x - 1).toNat ++
      substr (getLineStr d.lines s.tail.x) 0 s.tail.y

/-- `TextDocument::getSelection (index, navigation, fixingTail)`. -/
def getSelection (d : TextDocument) (index : Int) (navigation : Navigation)
    (fixingTail : Bool) : Selection :=
  let s := d.getStoredSelection index
  match navigation with
  | .identity => s
  | .wholeDocument => d.post fixingTail ⟨⟨0, 0⟩, d.getEnd⟩
  | .wholeLine =>
      d.post fixingTail ⟨⟨s.head.x, 0⟩, ⟨s.tail.x, d.getNumColumns s.tail.x⟩⟩
  | .wholeWord =>
      d.post fixingTail ⟨(d.prevWord s.head).2, (d.nextWord s.tail).2⟩
  | .forwardByChar => d.post fixingTail { s with head := (d.next s.head).2 }
  | .backwardByChar => d.post fixingTail { s with head := (d.prev s.head).2 }
  | .forwardByWord => d.post fixingTail { s with head := (d.nextWord s.head).2 }
  | .backwardByWord => d.post fixingTail { s with head := (d.prevWord s.head).2 }
  | .forwardByLine => d.post fixingTail { s with head := (d.nextRow s.head).2 }
  | .backwardByLine => d.post fixingTail { s with head := (d.prevRow s.head).2 }
  | .toLineStart => d.post fixingTail { s with head := ⟨s.head.x, 0⟩ }
  | .toLineEnd =>
      d.post fixingTail { s with head := ⟨s.head.x, d.getNumColumns s.head.x⟩ }

/-- `TextDocument::getSelections (navigation, fixingTail)`: one `getSelection`
per stored selection, in order. -/
def getSelections (d : TextDocument) (navigation : Navigation)
    (fixingTail : Bool) : List Selection :=
  (List.range d.selections.length).map
    (fun n => d.getSelection n navigation fixingTail)

/-- `TextDocument::replaceAll`: clear the line store then add every line of
`StringArray::fromLines (content)`. -/
def replaceAll (d : TextDocument) (content : List Char) : TextDocument :=
  { d with lines := fromLines content }

end TextDocument

/-- `mcl::Transaction::accountingForSpecialCharacters`: a trailing tab code
becomes four spaces; a trailing backspace (delete) code steps the head back
(forward) when `head.y == tail.y` and clears the content.  All three guards
test the last character of the *original* content. -/
def Transaction.accountingForSpecialCharacters (tr : Transaction)
    (d : TextDocument) : Transaction :=
  let t0 := tr
  let t1 :=
    if lastChar tr.content = tabKeyCode then
      { t0 with content := [' ', ' ', ' ', ' '] }
    else t0
  if lastChar tr.content = backspaceKeyCode then
    let sel := t1.selection
    let sel :=
      if sel.head.y = sel.tail.y then { sel with head := (d.prev sel.head).2 } else sel
    { t1 with selection := sel, content := [] }
  else if lastChar tr.content = deleteKeyCode then
    let sel := t1.selection
    let sel :=
      if sel.head.y = sel.tail.y then { sel with head := (d.next sel.head).2 } else sel
    { t1 with selection := sel, content := [] }
  else t1

namespace TextDocument

/-- The row-insertion loop of `fulfill`: `lines.insert (row++, line)` over a
list of rows, starting at `row`. -/
def insertRows (lines : List (List Char)) (row : Int) :
    List (List Char) → List (List Char)
  | [] => lines
  | l :: ls => insertRows (insertAt lines row l) (row + 1) ls

/-- `mcl::TextDocument::fulfill`: the sole mutator.  Returns the reciprocal
transaction together with the updated document. -/
def fulfill (d : TextDocument) (transaction : Transaction) :
    Transaction × TextDocument :=
  let t := transaction.accountingForSpecialCharacters d
  let s := t.selection.oriented
  let L := d.getSelectionContent (s.horizontallyMaximized d)
  let i := s.head.y
  let j := lastIndexOfNL L + s.tail.y + 1
  let M := substr L 0 i ++ t.content ++ substrFrom L j
  let shape := (Selection.ofContent t.content).startingFrom s.head
  let newSelections := d.selections.map (fun ex => (ex.pullBy s).pushBy shape)
  let lines1 := removeRange d.lines s.head.x (s.tail.x - s.head.x + 1)
  -- `int row = s.head.x; if (M.isEmpty()) lines.insert (row++, String());`
  let lines2 := if M = [] then insertAt lines1 s.head.x [] else lines1
  let row := if M = [] then s.head.x + 1 else s.head.x
  let lines3 := insertRows lines2 row (fromLines M)
  let r : Transaction :=
    { selection := shape
      content := substr L i j
      direction := t.direction.flip }
  (r, { lines := lines3, selections := newSelections })

end TextDocument

/-! ## Basic lemmas -/

theorem Selection.oriented_of_isOriented {s : Selection} (h : s.isOriented = true) :
    s.oriented = s := by
  simp [Selection.oriented, h]

theorem Selection.isOriented_iff (s : Selection) :
    s.isOriented = true ↔
      s.head.x < s.tail.x ∨ (s.head.x = s.tail.x ∧ s.head.y ≤ s.tail.y) := by
  simp only [Selection.isOriented, Bool.not_eq_true', Bool.or_eq_false_iff,
    decide_eq_false_iff_not, Bool.and_eq_false_iff, beq_eq_false_iff_ne, ne_eq,
    not_lt, beq_iff_eq]
  omega

theorem Selection.isOriented_oriented (s : Selection) :
    s.oriented.isOriented = true := by
  unfold Selection.oriented
  by_cases h : s.isOriented = true
  · rw [if_pos h]
    exact h
  · rw [if_neg h]
    rw [Selection.isOriented_iff] at h ⊢
    unfold Selection.swapped
    dsimp only
    omega

theorem TextDocument.getNumColumns_nonneg (d : TextDocument) (i : Int) :
    0 ≤ d.getNumColumns i := by
  simp [TextDocument.getNumColumns]

theorem TextDocument.getNumColumns_of_ge (d : TextDocument) (i : Int)
    (h : d.getNumRows ≤ i) : d.getNumColumns i = 0 := by
  unfold TextDocument.getNumColumns getLineStr
  unfold TextDocument.getNumRows at h
  have h0 : ¬ i < 0 := by omega
  rw [if_neg h0]
  rw [List.getD_eq_getElem?_getD, List.getElem?_eq_none (by omega)]
  rfl

/-! ## C3: pull semantics -/

/-- The `pull` update rule exactly as §4.1 of the spec words it, for an
oriented selection `S`: the column is decremented by `S`'s column span on the
tail row (`tail.col − head.col` when single-line, else `tail.col`) exactly when
`S.tail.row == index.row` and `S.head.col ≤ index.col`; the row is decremented
by the row span exactly when `S.head.row ≤ index.row`. -/
def pullSpecified (S : Selection) (index : Point) : Point :=
  ⟨if S.head.x ≤ index.x then index.x - (S.tail.x - S.head.x) else index.x,
   if S.tail.x = index.x ∧ S.head.y ≤ index.y then
     index.y - (if S.isSingleLine then S.tail.y - S.head.y else S.tail.y)
   else index.y⟩

/-- C3: for every oriented selection `S` and every index, `Selection::pull`
decrements `index.col` exactly when `S.tail.row == index.row` and
`S.head.col ≤ index.col`, by `S.tail.col − S.head.col` when `S` is single-line
and by `S.tail.col` when multi-line, and decrements `index.row` by the row span
`S.tail.row − S.head.row` exactly when `S.head.row ≤ index.row`. -/
theorem pull_matches_specified (S : Selection) (index : Point)
    (h : S.isOriented = true) : S.pull index = pullSpecified S index := by
  unfold Selection.pull pullSpecified
  rw [Selection.oriented_of_isOriented h]
  simp only [Selection.isSingleLine, beq_iff_eq]
  refine congrArg₂ Point.mk rfl ?_
  split_ifs <;> rfl

/-- Witness for C3 at a concrete oriented selection and index. -/
theorem pull_matches_specified_witness :
    (Selection.mk ⟨0, 2⟩ ⟨1, 1⟩).isOriented = true ∧
      (Selection.mk ⟨0, 2⟩ ⟨1, 1⟩).pull ⟨1, 5⟩ =
        pullSpecified (Selection.mk ⟨0, 2⟩ ⟨1, 1⟩) ⟨1, 5⟩ :=
  ⟨by decide, pull_matches_specified (Selection.mk ⟨0, 2⟩ ⟨1, 1⟩) ⟨1, 5⟩ (by decide)⟩

/-! ## C10: character-step boundary behaviour -/

/-- An index is in bounds when `0 ≤ row ≤ numRows` and the column lies within
the row's length (the sentinel row `numRows` has length 0). -/
def TextDocument.inBounds (d : TextDocument) (p : Point) : Prop :=
  0 ≤ p.x ∧ p.x ≤ d.getNumRows ∧ 0 ≤ p.y ∧ p.y ≤ d.getNumColumns p.x

/-- C10: for every in-bounds index, `next` returns false exactly at the end
sentinel and `prev` returns false exactly at `(0,0)`; a false return leaves the
index unchanged and a true return yields an in-bounds index again. -/
theorem char_step_boundaries (d : TextDocument) (p : Point) (h : d.inBounds p) :
    ((d.next p).1 = false ↔ p = d.getEnd) ∧
    ((d.next p).1 = false → (d.next p).2 = p) ∧
    ((d.next p).1 = true → d.inBounds (d.next p).2) ∧
    ((d.prev p).1 = false ↔ p = ⟨0, 0⟩) ∧
    ((d.prev p).1 = false → (d.prev p).2 = p) ∧
    ((d.prev p).1 = true → d.inBounds (d.prev p).2) := by
  obtain ⟨px, py⟩ := p
  obtain ⟨hx0, hxr, hy0, hyc⟩ := h
  simp only [TextDocument.inBounds] at *
  have hcnn : ∀ i : Int, 0 ≤ d.getNumColumns i := d.getNumColumns_nonneg
  have hend : d.getNumColumns d.getNumRows = 0 := d.getNumColumns_of_ge _ le_rfl
  unfold TextDocument.next TextDocument.prev TextDocument.getEnd
  dsimp only at hx0 hxr hy0 hyc ⊢
  refine ⟨?_, ?_, ?_, ?_, ?_, ?_⟩ <;> split_ifs with h1 h2 <;>
      simp only [Point.mk.injEq, true_iff, false_iff, false_implies, true_implies,
        Bool.true_eq_false, Bool.false_eq_true, IsEmpty.forall_iff, forall_const,
        not_and, TextDocument.inBounds, implies_true] <;>
    try dsimp only
  · intro he
    rw [he] at h1
    omega
  · intro he
    rw [he] at h2
    omega
  · have hxe : px = d.getNumRows := by omega
    subst hxe
    constructor
    · rfl
    · omega
  · refine ⟨by omega, by omega, by omega, by omega⟩
  · exact ⟨by omega, by omega, by omega, by simpa using hcnn _⟩
  · omega
  · omega
  · constructor <;> omega
  · exact ⟨by omega, by omega, by omega, by omega⟩
  · exact ⟨by omega, by omega, by simpa using hcnn _, by omega⟩

/-- Witness for C10 on the document `["ab"]` at the in-bounds index `(0,2)`. -/
theorem char_step_boundaries_witness :
    (TextDocument.mk [['a', 'b']] []).inBounds ⟨0, 2⟩ ∧
      (((TextDocument.mk [['a', 'b']] []).next ⟨0, 2⟩).1 = false ↔
        (⟨0, 2⟩ : Point) = (TextDocument.mk [['a', 'b']] []).getEnd) :=
  ⟨⟨by decide, by decide, by decide, by decide⟩,
    (char_step_boundaries (TextDocument.mk [['a', 'b']] []) ⟨0, 2⟩
      ⟨by decide, by decide, by decide, by decide⟩).1⟩

/-! ## C8: end clamp -/

theorem post_head_ne_end (d : TextDocument) (ft : Bool) (s : Selection)
    (h1 : 1 ≤ d.getNumRows) : (d.post ft s).head ≠ d.getEnd := by
  unfold TextDocument.post
  have hhead : ∀ s' : Selection,
      ((if ft then s' else { s' with tail := s'.head }) : Selection).head = s'.head := by
    intro s'
    split_ifs <;> rfl
  by_cases he : s.head = d.getEnd
  · rw [if_pos he, hhead]
    dsimp only
    rw [he]
    unfold TextDocument.prev TextDocument.getEnd
    dsimp only
    rw [if_neg (by omega), if_pos (by omega)]
    dsimp only
    intro hctr
    rw [Point.mk.injEq] at hctr
    omega
  · rw [if_neg he, hhead]
    exact he

/-- C8: for every stored selection and every navigation other than `identity`,
the selection returned by `getSelection` never has its head on the document end
sentinel `(numRows, 0)`; and whenever a computed head lands exactly on the
sentinel, the post-rule steps it back one position to
`(numRows − 1, length of the last row)`. -/
theorem end_clamp (d : TextDocument) (index : Int) (nav : TextDocument.Navigation)
    (ft : Bool) (hrows : 1 ≤ d.getNumRows) (hnav : nav ≠ .identity) :
    (d.getSelection index nav ft).head ≠ d.getEnd ∧
    (∀ s : Selection, s.head = d.getEnd →
      (d.post ft s).head = ⟨d.getNumRows - 1, d.getNumColumns (d.getNumRows - 1)⟩) := by
  constructor
  · cases nav
    case identity => exact absurd rfl hnav
    all_goals exact post_head_ne_end d ft _ hrows
  · intro s hs
    unfold TextDocument.post
    rw [if_pos hs]
    have hhead : ∀ s' : Selection,
        ((if ft then s' else { s' with tail := s'.head }) : Selection).head = s'.head := by
      intro s'
      split_ifs <;> rfl
    rw [hhead]
    dsimp only
    rw [hs]
    unfold TextDocument.prev TextDocument.getEnd
    dsimp only
    rw [if_neg (by omega), if_pos (by omega)]

/-- Witness for C8 on the document `["ab"]``, navigating forward by char. -/
theorem end_clamp_witness :
    (TextDocument.mk [['a', 'b']] [⟨⟨0, 2⟩, ⟨0, 2⟩⟩]).getSelection 0
        .forwardByChar false ≠
      Selection.mk ((TextDocument.mk [['a', 'b']] [⟨⟨0, 2⟩, ⟨0, 2⟩⟩]).getEnd)
        ((TextDocument.mk [['a', 'b']] [⟨⟨0, 2⟩, ⟨0, 2⟩⟩]).getEnd) := by
  intro hctr
  exact (end_clamp (TextDocument.mk [['a', 'b']] [⟨⟨0, 2⟩, ⟨0, 2⟩⟩]) 0
    .forwardByChar false (by decide) (by decide)).1 (by rw [hctr])

/-! ## C9: word-forward navigation -/

theorem nwAdvance_whitespace (d : TextDocument) :
    ∀ (fuel : Nat) (i r : Point), d.nwAdvance fuel i = (true, r) →
      isWhitespace (d.getCharacter r) = true := by
  intro fuel
  induction fuel with
  | zero =>
    intro i r h
    exact absurd h (by simp [TextDocument.nwAdvance])
  | succ n ih =>
    intro i r h
    rcases hn : d.next i with ⟨ok, i2⟩
    simp only [TextDocument.nwAdvance, hn] at h
    by_cases hok : ok = true
    · rw [if_pos hok] at h
      by_cases hws : isWhitespace (d.getCharacter i2) = true
      · rw [if_pos hws] at h
        obtain ⟨-, hr⟩ := Prod.mk.injEq .. ▸ h
        rw [← hr]
        exact hws
      · rw [if_neg hws] at h
        exact ih i2 r h
    · rw [if_neg hok] at h
      obtain ⟨hb, -⟩ := Prod.mk.injEq .. ▸ h
      exact absurd hb (by simp)

/-- C9: `nextWord` only ever stops (with a true result) on a whitespace
character — the virtual `'\n'` at line ends included — having first skipped
the whitespace run at the starting position; on the line `"foo  bar"` with the
caret at `(0,0)`, `forwardByWord` navigation moves the head to `(0,3)`, the
first whitespace after the word `"foo"`, and from `(0,3)` the whitespace run
is skipped and the head lands on `(0,8)`, the virtual newline ending `"bar"`. -/
theorem nextWord_navigation
    (d : TextDocument) (i r : Point) (h : d.nextWord i = (true, r)) :
    isWhitespace (d.getCharacter r) = true ∧
    (TextDocument.mk [['f', 'o', 'o', ' ', ' ', 'b', 'a', 'r']]
        [⟨⟨0, 0⟩, ⟨0, 0⟩⟩]).getSelection 0 .forwardByWord false =
      ⟨⟨0, 3⟩, ⟨0, 3⟩⟩ ∧
    (TextDocument.mk [['f', 'o', 'o', ' ', ' ', 'b', 'a', 'r']]
        [⟨⟨0, 0⟩, ⟨0, 0⟩⟩]).nextWord ⟨0, 3⟩ = (true, ⟨0, 8⟩) := by
  refine ⟨?_, by decide, by decide⟩
  unfold TextDocument.nextWord at h
  split_ifs at h with he hws
  · exact absurd h (by simp)
  · exact nwAdvance_whitespace d _ _ r h
  · exact nwAdvance_whitespace d _ _ r h

/-- Witness for C9: the word-forward stop `(0,3)` on `"foo  bar"` is indeed a
whitespace character. -/
theorem nextWord_navigation_witness :
    isWhitespace ((TextDocument.mk [['f', 'o', 'o', ' ', ' ', 'b', 'a', 'r']]
      [⟨⟨0, 0⟩, ⟨0, 0⟩⟩]).getCharacter ⟨0, 3⟩) = true :=
  (nextWord_navigation
    (TextDocument.mk [['f', 'o', 'o', ' ', ' ', 'b', 'a', 'r']] [⟨⟨0, 0⟩, ⟨0, 0⟩⟩])
    ⟨0, 0⟩ ⟨0, 3⟩ (by decide)).1

/-! ## C5: newline insertion scenario -/

/-- C2: starting from the single line `"abcd"` with singular selections at
`(0,1)` and `(0,3)`, fulfilling an `"x"` insertion at the first caret (whose
pull/push re-anchoring repositions the second caret to `(0,4)`) and then an
`"x"` insertion at that repositioned caret yields the line `"axbcxd"` with the
stored carets at columns 2 and 5. -/
theorem scenario_multi_caret_edit :
    (((TextDocument.mk [['a', 'b', 'c', 'd']]
          [⟨⟨0, 1⟩, ⟨0, 1⟩⟩, ⟨⟨0, 3⟩, ⟨0, 3⟩⟩]).fulfill
        ⟨⟨⟨0, 1⟩, ⟨0, 1⟩⟩, ['x'], .forward⟩).2.selections.getD 1 ⟨⟨0, 0⟩, ⟨0, 0⟩⟩ =
      Selection.mk ⟨0, 4⟩ ⟨0, 4⟩) ∧
    ((((TextDocument.mk [['a', 'b', 'c', 'd']]
            [⟨⟨0, 1⟩, ⟨0, 1⟩⟩, ⟨⟨0, 3⟩, ⟨0, 3⟩⟩]).fulfill
          ⟨⟨⟨0, 1⟩, ⟨0, 1⟩⟩, ['x'], .forward⟩).2.fulfill
        ⟨⟨⟨0, 4⟩, ⟨0, 4⟩⟩, ['x'], .forward⟩).2.lines =
      [['a', 'x', 'b', 'c', 'x', 'd']]) ∧
    ((((TextDocument.mk [['a', 'b', 'c', 'd']]
            [⟨⟨0, 1⟩, ⟨0, 1⟩⟩, ⟨⟨0, 3⟩, ⟨0, 3⟩⟩]).fulfill
          ⟨⟨⟨0, 1⟩, ⟨0, 1⟩⟩, ['x'], .forward⟩).2.fulfill
        ⟨⟨⟨0, 4⟩, ⟨0, 4⟩⟩, ['x'], .forward⟩).2.selections =
      [⟨⟨0, 2⟩, ⟨0, 2⟩⟩, ⟨⟨0, 5⟩, ⟨0, 5⟩⟩]) := by
  refine ⟨by decide, by decide, by decide⟩

/-! ## C7: backspace normalization -/

/-- Refutation of C7 as stated: the backspace head-step is guarded by
`head.y == tail.y` (equal columns), not by the selection being singular.  On
`["abc","def"]` the non-singular selection `(1,0)–(0,0)` has its head stepped
back to `(0,3)`. -/
theorem backspace_nonsingular_steps :
    (Transaction.accountingForSpecialCharacters
        ⟨⟨⟨1, 0⟩, ⟨0, 0⟩⟩, [backspaceKeyCode], .forward⟩
        (TextDocument.mk [['a', 'b', 'c'], ['d', 'e', 'f']] [])).selection.head =
      ⟨0, 3⟩ ∧
    (Selection.mk ⟨1, 0⟩ ⟨0, 0⟩).isSingular = false := by
  refine ⟨by decide, by decide⟩

/-- C7 (amended): normalization of a transaction whose content ends with the
backspace code clears the content and steps `selection.head` back by one
position exactly when `head.col == tail.col` (which holds in particular for
every singular selection); the tail is never touched.  At `(0,0)` the step
cannot occur, so a backspace at `(0,0)` of `["abc"]` fulfills to a complete
no-op on the document state. -/
theorem backspace_normalization (d : TextDocument) (tr : Transaction)
    (h : lastChar tr.content = backspaceKeyCode) :
    ((tr.accountingForSpecialCharacters d).content = [] ∧
      (tr.accountingForSpecialCharacters d).selection.head =
        (if tr.selection.head.y = tr.selection.tail.y then (d.prev tr.selection.head).2
         else tr.selection.head) ∧
      (tr.accountingForSpecialCharacters d).selection.tail = tr.selection.tail) ∧
    ((TextDocument.mk [['a', 'b', 'c']] [⟨⟨0, 0⟩, ⟨0, 0⟩⟩]).fulfill
        ⟨⟨⟨0, 0⟩, ⟨0, 0⟩⟩, [backspaceKeyCode], .forward⟩).2 =
      TextDocument.mk [['a', 'b', 'c']] [⟨⟨0, 0⟩, ⟨0, 0⟩⟩] := by
  refine ⟨?_, by decide⟩
  unfold Transaction.accountingForSpecialCharacters
  rw [h]
  have htab : backspaceKeyCode = tabKeyCode ↔ False := by decide
  simp only [eq_self_iff_true, if_true, htab, if_false]
  split_ifs with hy <;> refine ⟨?_, ?_, ?_⟩ <;> first | rfl | trivial

/-- Witness for C7's amended theorem on a concrete backspace transaction. -/
theorem backspace_normalization_witness :
    (Transaction.accountingForSpecialCharacters
      ⟨⟨⟨0, 2⟩, ⟨0, 2⟩⟩, [backspaceKeyCode], .forward⟩
      (TextDocument.mk [['a', 'b', 'c']] [])).content = [] :=
  (backspace_normalization (TextDocument.mk [['a', 'b', 'c']] [])
    ⟨⟨⟨0, 2⟩, ⟨0, 2⟩⟩, [backspaceKeyCode], .forward⟩ (by decide)).1.1

/-! ## C6: at-least-one-row invariant -/

theorem splitNL_ne_nil : ∀ cs : List Char, splitNL cs ≠ [] := by
  intro cs
  cases cs with
  | nil => simp [splitNL]
  | cons c rest =>
    unfold splitNL
    split_ifs
    · simp
    · rcases splitNL rest with _ | ⟨l, ls⟩ <;> simp

theorem splitNL_nil : splitNL [] = [[]] := rfl

theorem splitNL_cons_nl (cs : List Char) : splitNL ('\n' :: cs) = [] :: splitNL cs := by
  rw [splitNL]
  rw [if_pos rfl]

theorem splitNL_cons_other (c : Char) (cs : List Char) (hc : c ≠ '\n') :
    splitNL (c :: cs) =
      match splitNL cs with
      | [] => [[c]]
      | l :: ls => (c :: l) :: ls := by
  rw [splitNL]
  rw [if_neg hc]

theorem splitNL_of_not_mem (cs : List Char) (h : '\n' ∉ cs) : splitNL cs = [cs] := by
  induction cs with
  | nil => rfl
  | cons c cs ih =>
    simp only [List.mem_cons, not_or] at h
    rw [splitNL_cons_other c cs (fun hc => h.1 hc.symm), ih h.2]

theorem splitNL_length (cs : List Char) :
    (splitNL cs).length = cs.count '\n' + 1 := by
  induction cs with
  | nil => rfl
  | cons c cs ih =>
    by_cases hc : c = '\n'
    · subst hc
      rw [splitNL_cons_nl]
      simp only [List.length_cons, ih, List.count_cons]
      simp
    · rw [splitNL_cons_other c cs hc]
      rcases hsp : splitNL cs with _ | ⟨l, ls⟩
      · exact absurd hsp (splitNL_ne_nil cs)
      · rw [hsp] at ih
        simp only [List.length_cons] at ih ⊢
        rw [List.count_cons]
        simp only [beq_iff_eq]
        rw [if_neg hc]
        omega

theorem mem_of_getLast_some {l : List Char} {c : Char}
    (h : l.getLast? = some c) : c ∈ l := by
  induction l with
  | nil => simp at h
  | cons a l ih =>
    rcases l with _ | ⟨b, l⟩
    · have : a = c := by simpa using h
      simp [this]
    · rw [List.getLast?_cons_cons] at h
      exact List.mem_cons_of_mem a (ih h)

theorem splitNL_last_ne (cs : List Char) (h1 : cs ≠ [])
    (h2 : cs.getLast? ≠ some '\n') : (splitNL cs).getLast? ≠ some [] := by
  induction cs with
  | nil => exact absurd rfl h1
  | cons c rest ih =>
    rcases rest with _ | ⟨c2, rest2⟩
    · by_cases hc : c = '\n'
      · exact absurd (by rw [hc]; rfl) h2
      · rw [splitNL_cons_other c [] hc, splitNL_nil]
        intro hctr
        simp at hctr
    · have h2' : (c2 :: rest2).getLast? ≠ some '\n' := by
        rw [List.getLast?_cons_cons] at h2
        exact h2
      have ih' := ih (by simp) h2'
      by_cases hc : c = '\n'
      · rw [hc, splitNL_cons_nl]
        rcases hsp : splitNL (c2 :: rest2) with _ | ⟨l, ls⟩
        · exact absurd hsp (splitNL_ne_nil _)
        · rw [List.getLast?_cons_cons]
          rw [hsp] at ih'
          exact ih'
      · rw [splitNL_cons_other c _ hc]
        rcases hsp : splitNL (c2 :: rest2) with _ | ⟨l, ls⟩
        · exact absurd hsp (splitNL_ne_nil _)
        · dsimp only
          rcases ls with _ | ⟨l2, ls2⟩
          · intro hctr
            simp at hctr
          · rw [List.getLast?_cons_cons]
            rw [hsp] at ih'
            rw [List.getLast?_cons_cons] at ih'
            exact ih'

theorem fromLines_eq_splitNL (cs : List Char) (h1 : cs ≠ [])
    (h2 : cs.getLast? ≠ some '\n') : fromLines cs = splitNL cs := by
  unfold fromLines
  rw [if_neg (splitNL_last_ne cs h1 h2)]

theorem fromLines_length_pos (cs : List Char) (h : cs ≠ []) :
    1 ≤ (fromLines cs).length := by
  unfold fromLines
  by_cases hlast : (splitNL cs).getLast? = some []
  · rw [if_pos hlast]
    by_cases hcnt : cs.count '\n' = 0
    · have hnm : '\n' ∉ cs := List.count_eq_zero.mp hcnt
      rw [splitNL_of_not_mem cs hnm] at hlast
      simp at hlast
      exact absurd hlast h
    · rw [List.length_dropLast, splitNL_length]
      omega
  · rw [if_neg hlast]
    rw [splitNL_length]
    omega

theorem insertAt_length (xs : List (List Char)) (i : Int) (a : List Char) :
    (insertAt xs i a).length = xs.length + 1 := by
  unfold insertAt
  split_ifs with h
  · simp
  · simp only [List.length_append, List.length_take, List.length_cons, List.length_drop]
    omega

theorem insertRows_length (ls : List (List Char)) :
    ∀ (xs : List (List Char)) (row : Int),
      (TextDocument.insertRows xs row ls).length = xs.length + ls.length := by
  induction ls with
  | nil => intro xs row; simp [TextDocument.insertRows]
  | cons l ls ih =>
    intro xs row
    unfold TextDocument.insertRows
    rw [ih, insertAt_length]
    simp only [List.length_cons]
    omega

theorem insert_phase_length (L1 : List (List Char)) (A : Int) (M : List Char) :
    1 ≤ (TextDocument.insertRows (if M = [] then insertAt L1 A [] else L1)
          (if M = [] then A + 1 else A) (fromLines M)).length := by
  by_cases hM : M = []
  · rw [if_pos hM, if_pos hM, hM]
    rw [insertRows_length, insertAt_length]
    omega
  · rw [if_neg hM, if_neg hM, insertRows_length]
    have := fromLines_length_pos M hM
    omega

/-- Counterexample to C6 as stated: `replaceAll("")` leaves the line store
completely empty (zero rows), because `StringArray::fromLines` yields no
entries at all on an empty string. -/
theorem replaceAll_empty_zero_rows :
    ((TextDocument.mk [['a']] []).replaceAll []).lines = [] ∧
    ¬ 1 ≤ ((TextDocument.mk [['a']] []).replaceAll []).getNumRows := by
  refine ⟨by decide, by decide⟩

/-- C6 (amended): `replaceAll` of any nonempty string leaves at least one row,
but `replaceAll("")` leaves zero rows, not one; every `fulfill` call leaves the
line store with at least one row, and when the computed replacement string `M`
is empty the removed row range is replaced by exactly one empty row (shown on a
whole-line deletion of `["abc"]`, which leaves exactly `[""]`). -/
theorem rows_invariant (d e : TextDocument) (c : List Char) (tr : Transaction)
    (hc : c ≠ []) :
    1 ≤ (d.replaceAll c).getNumRows ∧
    1 ≤ ((e.fulfill tr).2).getNumRows ∧
    ((TextDocument.mk [['a', 'b', 'c']] []).fulfill
        ⟨⟨⟨0, 0⟩, ⟨0, 3⟩⟩, [], .forward⟩).2.lines = [[]] := by
  refine ⟨?_, ?_, by decide⟩
  · show (1 : Int) ≤ ((fromLines c).length : Int)
    exact_mod_cast fromLines_length_pos c hc
  · unfold TextDocument.fulfill TextDocument.getNumRows
    dsimp only
    exact_mod_cast insert_phase_length _ _ _

/-- Witness for C6's amended theorem at concrete documents and content. -/
theorem rows_invariant_witness :
    1 ≤ ((TextDocument.mk [] []).replaceAll ['a']).getNumRows :=
  (rows_invariant (TextDocument.mk [] []) (TextDocument.mk [] [])
    ['a'] ⟨⟨⟨0, 0⟩, ⟨0, 0⟩⟩, [], .forward⟩ (by decide)).1

/-! ## C4: the re-anchoring loop runs over every stored selection -/

/-- Refutation of C4's "edited selection is left unchanged" conjunct: with the
single stored caret `(0,1)` on `"abcd"`, fulfilling an `"x"` insertion at that
very caret moves the stored caret to `(0,2)` — the re-anchoring loop runs over
*all* stored selections, the edited one included. -/
theorem fulfill_moves_edited_selection :
    ((TextDocument.mk [['a', 'b', 'c', 'd']] [⟨⟨0, 1⟩, ⟨0, 1⟩⟩]).fulfill
        ⟨⟨⟨0, 1⟩, ⟨0, 1⟩⟩, ['x'], .forward⟩).2.selections ≠
      [⟨⟨0, 1⟩, ⟨0, 1⟩⟩] := by
  decide

/-- C4 (amended): during `fulfill`, *every* stored selection — including any
stored copy of the edited selection `S` itself — is updated by
`pullBy (oriented S)` followed by `pushBy` of the selection shaped like the
inserted content anchored at `S.head`; the stored edited selection is *not*
exempted from this re-anchoring step. -/
theorem fulfill_updates_every_selection (d : TextDocument) (tr : Transaction) :
    (d.fulfill tr).2.selections.length = d.selections.length ∧
    ∀ k : Nat, k < d.selections.length →
      (d.fulfill tr).2.selections.getD k ⟨⟨0, 0⟩, ⟨0, 0⟩⟩ =
        ((d.selections.getD k ⟨⟨0, 0⟩, ⟨0, 0⟩⟩).pullBy
            (tr.accountingForSpecialCharacters d).selection.oriented).pushBy
          ((Selection.ofContent (tr.accountingForSpecialCharacters d).content).startingFrom
            (tr.accountingForSpecialCharacters d).selection.oriented.head) := by
  constructor
  · unfold TextDocument.fulfill
    dsimp only
    simp
  · intro k hk
    unfold TextDocument.fulfill
    dsimp only
    rw [List.getD_eq_getElem?_getD, List.getD_eq_getElem?_getD, List.getElem?_map,
      List.getElem?_eq_getElem hk]
    rfl

/-- Witness for C4's amended theorem at a concrete document and index. -/
theorem fulfill_updates_every_selection_witness :
    ((TextDocument.mk [['a', 'b']] [⟨⟨0, 2⟩, ⟨0, 2⟩⟩]).fulfill
        ⟨⟨⟨0, 1⟩, ⟨0, 1⟩⟩, ['y'], .forward⟩).2.selections.getD 0 ⟨⟨0, 0⟩, ⟨0, 0⟩⟩ =
      ((Selection.mk ⟨0, 2⟩ ⟨0, 2⟩).pullBy
          ((Transaction.mk ⟨⟨0, 1⟩, ⟨0, 1⟩⟩ ['y'] .forward).accountingForSpecialCharacters
            (TextDocument.mk [['a', 'b']] [⟨⟨0, 2⟩, ⟨0, 2⟩⟩])).selection.oriented).pushBy
        ((Selection.ofContent
            ((Transaction.mk ⟨⟨0, 1⟩, ⟨0, 1⟩⟩ ['y'] .forward).accountingForSpecialCharacters
              (TextDocument.mk [['a', 'b']] [⟨⟨0, 2⟩, ⟨0, 2⟩⟩])).content).startingFrom
          ((Transaction.mk ⟨⟨0, 1⟩, ⟨0, 1⟩⟩ ['y'] .forward).accountingForSpecialCharacters
            (TextDocument.mk [['a', 'b']] [⟨⟨0, 2⟩, ⟨0, 2⟩⟩])).selection.oriented.head) :=
  (fulfill_updates_every_selection (TextDocument.mk [['a', 'b']] [⟨⟨0, 2⟩, ⟨0, 2⟩⟩])
    ⟨⟨⟨0, 1⟩, ⟨0, 1⟩⟩, ['y'], .forward⟩).2 0 (by decide)

/-! ## C1 infrastructure: newline/split/join lemmas -/

theorem lastIndexOfNL_nil : lastIndexOfNL [] = -1 := rfl

theorem lastIndexOfNL_cons (c : Char) (cs : List Char) :
    lastIndexOfNL (c :: cs) =
      if 0 ≤ lastIndexOfNL cs then lastIndexOfNL cs + 1
      else if c = '\n' then 0 else -1 := rfl

theorem lastIndexOfNL_ge (cs : List Char) : -1 ≤ lastIndexOfNL cs := by
  induction cs with
  | nil => simp [lastIndexOfNL_nil]
  | cons c cs ih =>
    rw [lastIndexOfNL_cons]
    split_ifs <;> omega

theorem lastIndexOfNL_lt_length (cs : List Char) :
    lastIndexOfNL cs < (cs.length : Int) := by
  induction cs with
  | nil => simp [lastIndexOfNL_nil]
  | cons c cs ih =>
    rw [lastIndexOfNL_cons]
    simp only [List.length_cons]
    split_ifs <;> push_cast <;> omega

theorem lastIndexOfNL_nonneg_iff (cs : List Char) :
    0 ≤ lastIndexOfNL cs ↔ '\n' ∈ cs := by
  induction cs with
  | nil => simp [lastIndexOfNL_nil]
  | cons c cs ih =>
    rw [lastIndexOfNL_cons]
    split_ifs with h1 h2
    · simp only [List.mem_cons]
      constructor
      · intro _
        right
        exact ih.mp h1
      · intro _
        omega
    · subst h2
      simp
    · simp only [List.mem_cons]
      constructor
      · intro hctr
        omega
      · rintro (hc | hm)
        · exact absurd hc.symm h2
        · exact absurd (ih.mpr hm) h1

theorem lastIndexOfNL_of_not_mem (cs : List Char) (h : '\n' ∉ cs) :
    lastIndexOfNL cs = -1 := by
  have h1 := lastIndexOfNL_ge cs
  have h2 : ¬ 0 ≤ lastIndexOfNL cs := fun hc => h ((lastIndexOfNL_nonneg_iff cs).mp hc)
  omega

theorem lastIndexOfNL_append (u v : List Char) :
    lastIndexOfNL (u ++ v) =
      if 0 ≤ lastIndexOfNL v then (u.length : Int) + lastIndexOfNL v
      else lastIndexOfNL u := by
  induction u with
  | nil =>
    simp only [List.nil_append, List.length_nil, Int.ofNat_zero, zero_add]
    have := lastIndexOfNL_ge v
    rw [lastIndexOfNL_nil]
    split_ifs <;> omega
  | cons c u ih =>
    rw [List.cons_append, lastIndexOfNL_cons, lastIndexOfNL_cons, ih]
    have hu := lastIndexOfNL_ge u
    have hv := lastIndexOfNL_ge v
    simp only [List.length_cons]
    split_ifs <;> push_cast <;> omega

theorem splitNL_append_nlfree (u v : List Char) (hu : '\n' ∉ u) :
    splitNL (u ++ v) = (u ++ (splitNL v).headI) :: (splitNL v).tail := by
  induction u with
  | nil =>
    rcases hv : splitNL v with _ | ⟨l, ls⟩
    · exact absurd hv (splitNL_ne_nil v)
    · rw [List.nil_append, hv]
      simp
  | cons c u ih =>
    simp only [List.mem_cons, not_or] at hu
    rw [List.cons_append, splitNL_cons_other c (u ++ v) (fun hc => hu.1 hc.symm),
      ih hu.2]
    simp

theorem splitNL_pieces_nlfree (cs : List Char) :
    ∀ l ∈ splitNL cs, '\n' ∉ l := by
  induction cs with
  | nil =>
    intro l hl
    simp only [splitNL_nil, List.mem_singleton] at hl
    subst hl
    simp
  | cons c cs ih =>
    by_cases hc : c = '\n'
    · subst hc
      rw [splitNL_cons_nl]
      intro l hl
      rcases List.mem_cons.mp hl with h | h
      · subst h
        simp
      · exact ih l h
    · rw [splitNL_cons_other c cs hc]
      rcases hsp : splitNL cs with _ | ⟨l0, ls⟩
      · exact absurd hsp (splitNL_ne_nil cs)
      · intro l hl
        rcases List.mem_cons.mp hl with h | h
        · subst h
          intro hmem
          rcases List.mem_cons.mp hmem with h' | h'
          · exact hc h'.symm
          · exact ih l0 (hsp ▸ List.mem_cons_self l0 ls) h'
        · exact ih l (hsp ▸ List.mem_cons_of_mem l0 h)

/-- Join a list of lines with newlines (the inverse of `splitNL`); used to
state what `getSelectionContent` returns on a horizontally maximized
selection. -/
def joinNL : List (List Char) → List Char
  | [] => []
  | [l] => l
  | l :: l' :: ls => l ++ '\n' :: joinNL (l' :: ls)

theorem joinNL_cons_cons (l l' : List Char) (ls : List (List Char)) :
    joinNL (l :: l' :: ls) = l ++ '\n' :: joinNL (l' :: ls) := rfl

theorem joinNL_cons_of_ne_nil (l : List Char) (ls : List (List Char)) (h : ls ≠ []) :
    joinNL (l :: ls) = l ++ '\n' :: joinNL ls := by
  rcases ls with _ | ⟨l', ls⟩
  · exact absurd rfl h
  · rfl

theorem joinNL_splitNL (cs : List Char) : joinNL (splitNL cs) = cs := by
  induction cs with
  | nil => rfl
  | cons c cs ih =>
    by_cases hc : c = '\n'
    · subst hc
      rw [splitNL_cons_nl]
      rcases hsp : splitNL cs with _ | ⟨l, ls⟩
      · exact absurd hsp (splitNL_ne_nil cs)
      · rw [hsp] at ih
        rw [joinNL_cons_cons]
        simp only [List.nil_append]
        rw [ih]
    · rw [splitNL_cons_other c cs hc]
      rcases hsp : splitNL cs with _ | ⟨l, ls⟩
      · exact absurd hsp (splitNL_ne_nil cs)
      · rw [hsp] at ih
        rcases ls with _ | ⟨l', ls⟩
        · simp only [joinNL] at ih ⊢
          rw [ih]
        · rw [joinNL_cons_cons] at ih ⊢
          rw [List.cons_append, ih]

theorem splitNL_joinNL (ls : List (List Char)) (hne : ls ≠ [])
    (hfree : ∀ l ∈ ls, '\n' ∉ l) : splitNL (joinNL ls) = ls := by
  induction ls with
  | nil => exact absurd rfl hne
  | cons l ls ih =>
    rcases ls with _ | ⟨l', ls⟩
    · show splitNL (joinNL [l]) = [l]
      exact splitNL_of_not_mem l (hfree l (List.mem_singleton_self l))
    · rw [joinNL_cons_cons]
      rw [splitNL_append_nlfree l ('\n' :: joinNL (l' :: ls))
        (hfree l (List.mem_cons_self l _))]
      rw [splitNL_cons_nl]
      rw [ih (by simp) (fun x hx => hfree x (List.mem_cons_of_mem l hx))]
      simp

theorem joinNL_append_last (ls : List (List Char)) (x : List Char) (h : ls ≠ []) :
    joinNL (ls ++ [x]) = joinNL ls ++ '\n' :: x := by
  induction ls with
  | nil => exact absurd rfl h
  | cons l ls ih =>
    rcases ls with _ | ⟨l', ls⟩
    · rfl
    · have ih' := ih (by simp)
      rw [List.cons_append] at ih'
      rw [List.cons_append, List.cons_append, joinNL_cons_cons, joinNL_cons_cons, ih']
      simp

theorem count_joinNL (ls : List (List Char)) (hne : ls ≠ [])
    (hfree : ∀ l ∈ ls, '\n' ∉ l) :
    (joinNL ls).count '\n' = ls.length - 1 := by
  induction ls with
  | nil => exact absurd rfl hne
  | cons l ls ih =>
    rcases ls with _ | ⟨l', ls⟩
    · show (joinNL [l]).count '\n' = 0
      simp only [joinNL]
      exact List.count_eq_zero.mpr (hfree l (List.mem_singleton_self l))
    · rw [joinNL_cons_cons, List.count_append, List.count_cons]
      rw [List.count_eq_zero.mpr (hfree l (List.mem_cons_self l _))]
      rw [ih (by simp) (fun x hx => hfree x (List.mem_cons_of_mem l hx))]
      simp only [List.length_cons, beq_self_eq_true, if_pos]
      omega

theorem ofContent_foldl (cs : List Char) :
    ∀ rs n lls : Int,
      cs.foldl
        (fun (acc : Int × Int × Int) c =>
          let (rowSpan, nn, lastLineStart) := acc
          if c = '\n' then (rowSpan + 1, nn + 1, nn + 1)
          else (rowSpan, nn + 1, lastLineStart))
        (rs, n, lls) =
      (rs + cs.count '\n', n + cs.length,
        if 0 ≤ lastIndexOfNL cs then n + lastIndexOfNL cs + 1 else lls) := by
  induction cs with
  | nil =>
    intro rs n lls
    simp [lastIndexOfNL_nil]
  | cons c cs ih =>
    intro rs n lls
    rw [List.foldl_cons]
    dsimp only
    have hge := lastIndexOfNL_ge cs
    by_cases hc : c = '\n'
    · rw [if_pos hc, ih]
      subst hc
      rw [lastIndexOfNL_cons]
      simp only [List.count_cons, List.length_cons, Prod.mk.injEq, beq_self_eq_true,
        if_true]
      refine ⟨by push_cast; omega, by push_cast; omega, ?_⟩
      split_ifs <;> omega
    · rw [if_neg hc, ih]
      rw [lastIndexOfNL_cons]
      simp only [List.count_cons, List.length_cons, Prod.mk.injEq]
      have hbeq : (c == '\n') = false := beq_eq_false_iff_ne.mpr hc
      rw [hbeq]
      simp only [Bool.false_eq_true, if_false, add_zero]
      refine ⟨trivial, by push_cast; omega, ?_⟩
      split_ifs with h1 h2 <;> omega

/-- The row span of a content string: its newline count. -/
def contentRowSpan (C : List Char) : Int := C.count '\n'

/-- The column extent of a content string's final line. -/
def contentLastLen (C : List Char) : Int :=
  (C.length : Int) - (if 0 ≤ lastIndexOfNL C then lastIndexOfNL C + 1 else 0)

theorem ofContent_eq (C : List Char) :
    Selection.ofContent C =
      ⟨⟨0, 0⟩, ⟨contentRowSpan C, contentLastLen C⟩⟩ := by
  unfold Selection.ofContent contentRowSpan contentLastLen
  rw [ofContent_foldl]
  dsimp only
  refine congrArg₂ Selection.mk rfl (congrArg₂ Point.mk (by omega) ?_)
  split_ifs <;> omega

theorem contentRowSpan_nonneg (C : List Char) : 0 ≤ contentRowSpan C := by
  unfold contentRowSpan
  positivity

theorem contentLastLen_nonneg (C : List Char) : 0 ≤ contentLastLen C := by
  unfold contentLastLen
  have := lastIndexOfNL_lt_length C
  split_ifs <;> omega

theorem push_matches_specified (S : Selection) (index : Point)
    (h : S.isOriented = true) :
    S.push index =
      ⟨if S.head.x ≤ index.x then index.x + (S.tail.x - S.head.x) else index.x,
       if S.head.x = index.x ∧ S.head.y ≤ index.y then
         index.y + (if S.head.x = S.tail.x then S.tail.y - S.head.y else S.tail.y)
       else index.y⟩ := by
  unfold Selection.push
  rw [Selection.oriented_of_isOriented h]
  refine congrArg₂ Point.mk rfl ?_
  split_ifs <;> rfl

theorem pull_origin (z : Point) :
    (Selection.mk ⟨0, 0⟩ ⟨0, 0⟩).pull z = z := by
  obtain ⟨zx, zy⟩ := z
  rw [pull_matches_specified _ _ (by decide)]
  unfold pullSpecified
  dsimp only
  refine congrArg₂ Point.mk ?_ ?_ <;> split_ifs <;> simp_all

theorem startingFrom_shape (ρ μ : Int) (p : Point) (hrho : 0 ≤ ρ) (hμ : 0 ≤ μ)
    (hx : 0 ≤ p.x) (hy : 0 ≤ p.y) :
    (Selection.mk ⟨0, 0⟩ ⟨ρ, μ⟩).startingFrom p =
      ⟨p, ⟨p.x + ρ, if ρ = 0 then p.y + μ else μ⟩⟩ := by
  obtain ⟨px, py⟩ := p
  dsimp only at hx hy
  have hsh : (Selection.mk ⟨0, 0⟩ ⟨ρ, μ⟩).isOriented = true := by
    rw [Selection.isOriented_iff]
    dsimp only
    omega
  have hA : (Selection.mk ⟨0, 0⟩ ⟨px, py⟩).isOriented = true := by
    rw [Selection.isOriented_iff]
    dsimp only
    omega
  unfold Selection.startingFrom
  rw [hsh]
  rw [if_pos rfl]
  unfold Selection.pullBy Selection.pushBy
  dsimp only
  rw [pull_origin, pull_origin]
  rw [push_matches_specified _ _ hA, push_matches_specified _ _ hA]
  dsimp only
  refine congrArg₂ Selection.mk (congrArg₂ Point.mk ?_ ?_) (congrArg₂ Point.mk ?_ ?_) <;>
    split_ifs <;> omega

theorem startingFrom_ofContent (C : List Char) (p : Point)
    (hx : 0 ≤ p.x) (hy : 0 ≤ p.y) :
    (Selection.ofContent C).startingFrom p =
      ⟨p, ⟨p.x + contentRowSpan C,
        if contentRowSpan C = 0 then p.y + contentLastLen C else contentLastLen C⟩⟩ := by
  rw [ofContent_eq]
  exact startingFrom_shape _ _ p (contentRowSpan_nonneg C) (contentLastLen_nonneg C) hx hy

/-- The positions (relative to an oriented edited selection `s`) whose pull/push
round trip is the identity: strictly above `s`'s first row, strictly below its
last row, or on the last row outside the affected column window. -/
def safePt (s : Selection) (z : Point) : Prop :=
  z.x < s.head.x ∨ s.tail.x < z.x ∨
    (z.x = s.tail.x ∧ (z.y < s.head.y ∨
      s.tail.y + (if s.head.x = s.tail.x then 0 else s.head.y) ≤ z.y))

instance (s : Selection) (z : Point) : Decidable (safePt s z) := by
  unfold safePt
  infer_instance

theorem pullpush_roundtrip (s s2 : Selection) (z : Point)
    (hs : s.isOriented = true)
    (hhy : 0 ≤ s.head.y) (hty : 0 ≤ s.tail.y)
    (h2head : s2.head = s.head)
    (h2x : s.head.x ≤ s2.tail.x) (h2y : 0 ≤ s2.tail.y)
    (h2single : s2.head.x = s2.tail.x → s2.head.y ≤ s2.tail.y)
    (hz : safePt s z) :
    s.push (s2.pull (s2.push (s.pull z))) = z := by
  have hs2 : s2.isOriented = true := by
    rw [Selection.isOriented_iff]
    rcases lt_or_eq_of_le h2x with h | h
    · left
      rw [h2head]
      exact h
    · right
      refine ⟨by rw [h2head, h], h2single (by rw [h2head, h])⟩
  obtain ⟨⟨a, h⟩, ⟨b, t⟩⟩ := s
  obtain ⟨⟨a2, h2⟩, ⟨b2, t2⟩⟩ := s2
  obtain ⟨zx, zy⟩ := z
  rw [Point.mk.injEq] at h2head
  obtain ⟨hh1, hh2⟩ := h2head
  subst hh1
  subst hh2
  dsimp only at hhy hty h2x h2y h2single
  unfold safePt at hz
  dsimp only at hz
  rw [pull_matches_specified _ _ hs]
  rw [push_matches_specified _ _ hs2]
  rw [pull_matches_specified _ _ hs2]
  rw [push_matches_specified _ _ hs]
  rw [Selection.isOriented_iff] at hs hs2
  dsimp only at hs hs2
  unfold pullSpecified
  dsimp only
  simp only [Selection.isSingleLine, beq_iff_eq]
  rw [Point.mk.injEq]
  constructor <;> split_ifs at hz ⊢ <;> omega

/-- The contiguous row range `[lo, hi)` of a line store. -/
def rowSlice (xs : List (List Char)) (lo hi : Nat) : List (List Char) :=
  (xs.take hi).drop lo

theorem rowSlice_cons (xs : List (List Char)) (lo hi : Nat)
    (h1 : lo < hi) (h2 : lo < xs.length) :
    rowSlice xs lo hi = xs.getD lo [] :: rowSlice xs (lo + 1) hi := by
  unfold rowSlice
  have hlen : lo < (xs.take hi).length := by
    rw [List.length_take]
    omega
  rw [List.drop_eq_getElem_cons hlen]
  congr 1
  rw [List.getElem_take]
  rw [List.getD_eq_getElem?_getD, List.getElem?_eq_getElem h2]
  rfl

theorem rowSlice_singleton (xs : List (List Char)) (k : Nat) (h : k < xs.length) :
    rowSlice xs k (k + 1) = [xs.getD k []] := by
  rw [rowSlice_cons xs k (k + 1) (by omega) h]
  unfold rowSlice
  congr 1
  have : (xs.take (k + 1)).length = k + 1 := by
    rw [List.length_take]
    omega
  apply List.drop_eq_nil_of_le
  omega

theorem rowSlice_length (xs : List (List Char)) (lo hi : Nat) :
    (rowSlice xs lo hi).length = min hi xs.length - lo := by
  unfold rowSlice
  rw [List.length_drop, List.length_take]

theorem rowSlice_concat (xs : List (List Char)) (lo hi : Nat)
    (h1 : lo ≤ hi) (h2 : hi < xs.length) :
    rowSlice xs lo (hi + 1) = rowSlice xs lo hi ++ [xs.getD hi []] := by
  unfold rowSlice
  rw [List.take_succ]
  rw [List.getElem?_eq_getElem h2]
  rw [List.drop_append_of_le_length (by rw [List.length_take]; omega)]
  congr 1
  rw [List.getD_eq_getElem?_getD, List.getElem?_eq_getElem h2]
  rfl

/-- Extracting the spliced-in middle: the row range `[p, p + x)` of
`P ++ X ++ Q` is `X` when `P` has length `p` and `X` has length `x`. -/
theorem rowSlice_splice (P X Q : List (List Char)) :
    rowSlice (P ++ X ++ Q) P.length (P.length + X.length) = X := by
  unfold rowSlice
  rw [List.append_assoc, List.take_append_eq_append_take]
  rw [List.take_of_length_le (by omega)]
  rw [List.take_append_eq_append_take]
  have h1 : P.length + X.length - P.length = X.length := by omega
  rw [h1, List.take_length]
  rw [List.drop_append_eq_append_drop]
  simp

theorem removeRange_spec (xs : List (List Char)) (a b : Int)
    (h0 : 0 ≤ a) (hab : a ≤ b) (hb : b < (xs.length : Int)) :
    removeRange xs a (b - a + 1) = xs.take a.toNat ++ xs.drop (b.toNat + 1) := by
  unfold removeRange
  dsimp only
  have hs : min (max a 0) (xs.length : Int) = a := by omega
  rw [hs]
  have he : min (max (a + (b - a + 1)) 0) (xs.length : Int) = b + 1 := by omega
  rw [he]
  have hm : max a (b + 1) = b + 1 := by omega
  rw [hm]
  have harg : (b + 1).toNat = b.toNat + 1 := by omega
  rw [harg]

theorem insertAt_in_range (xs : List (List Char)) (i : Int) (l : List Char)
    (h0 : 0 ≤ i) (hle : i ≤ (xs.length : Int)) :
    insertAt xs i l = xs.take i.toNat ++ l :: xs.drop i.toNat := by
  unfold insertAt
  rw [if_neg (by omega)]

theorem insertRows_splice (ls : List (List Char)) :
    ∀ (xs : List (List Char)) (i : Int), 0 ≤ i → i ≤ (xs.length : Int) →
      TextDocument.insertRows xs i ls = xs.take i.toNat ++ ls ++ xs.drop i.toNat := by
  induction ls with
  | nil =>
    intro xs i h0 hle
    unfold TextDocument.insertRows
    simp
  | cons l ls ih =>
    intro xs i h0 hle
    unfold TextDocument.insertRows
    rw [insertAt_in_range xs i l h0 hle]
    rw [ih _ (i + 1) (by omega) (by simp; omega)]
    have htake : (xs.take i.toNat ++ l :: xs.drop i.toNat).take (i + 1).toNat =
        xs.take i.toNat ++ [l] := by
      rw [List.take_append_eq_append_take]
      rw [List.take_of_length_le (by rw [List.length_take]; omega)]
      congr 1
      have hlen : (xs.take i.toNat).length = i.toNat := by
        rw [List.length_take]
        omega
      rw [hlen]
      have : (i + 1).toNat - i.toNat = 1 := by omega
      rw [this]
      rfl
    have hdrop : (xs.take i.toNat ++ l :: xs.drop i.toNat).drop (i + 1).toNat =
        xs.drop i.toNat := by
      rw [List.drop_append_eq_append_drop]
      have hlen : (xs.take i.toNat).length = i.toNat := by
        rw [List.length_take]
        omega
      rw [hlen]
      rw [List.drop_of_length_le (by rw [List.length_take]; omega)]
      have : (i + 1).toNat - i.toNat = 1 := by omega
      rw [this]
      rfl
    rw [htake, hdrop]
    simp

theorem insert_phase_splice (xs : List (List Char)) (i : Int) (M : List Char)
    (h0 : 0 ≤ i) (hle : i ≤ (xs.length : Int))
    (hMl : M.getLast? ≠ some '\n') :
    TextDocument.insertRows (if M = [] then insertAt xs i [] else xs)
        (if M = [] then i + 1 else i) (fromLines M) =
      xs.take i.toNat ++ splitNL M ++ xs.drop i.toNat := by
  by_cases hM : M = []
  · rw [if_pos hM, if_pos hM, hM]
    show TextDocument.insertRows (insertAt xs i []) (i + 1) (fromLines []) =
      xs.take i.toNat ++ splitNL [] ++ xs.drop i.toNat
    rw [show fromLines [] = [] from by decide, splitNL_nil]
    unfold TextDocument.insertRows
    rw [insertAt_in_range xs i [] h0 hle]
    simp
  · rw [if_neg hM, if_neg hM]
    rw [fromLines_eq_splitNL M hM hMl]
    exact insertRows_splice (splitNL M) xs i h0 hle

theorem getLineStr_nonneg (xs : List (List Char)) (i : Int) (h : 0 ≤ i) :
    getLineStr xs i = xs.getD i.toNat [] := by
  unfold getLineStr
  rw [if_neg (by omega)]

theorem midRows_zero (lines : List (List Char)) (x0 : Int) :
    TextDocument.midRows lines x0 0 = [] := by
  unfold TextDocument.midRows
  simp

theorem midRows_succ (lines : List (List Char)) (x0 : Int) (n : Nat) :
    TextDocument.midRows lines x0 (n + 1) =
      (getLineStr lines x0 ++ ['\n']) ++ TextDocument.midRows lines (x0 + 1) n := by
  unfold TextDocument.midRows
  rw [List.range_succ_eq_map]
  rw [List.map_cons, List.flatten_cons]
  congr 1
  · push_cast
    rw [add_zero]
  · rw [List.map_map]
    congr 1
    apply List.map_congr_left
    intro k hk
    simp only [Function.comp_apply]
    congr 2
    push_cast
    ring

theorem midRows_join (lines : List (List Char)) :
    ∀ (n : Nat) (x0 : Int), 0 ≤ x0 → x0 + n < (lines.length : Int) →
      TextDocument.midRows lines x0 n ++ getLineStr lines (x0 + n) =
        joinNL (rowSlice lines x0.toNat (x0.toNat + n + 1)) := by
  intro n
  induction n with
  | zero =>
    intro x0 h0 hlt
    rw [midRows_zero]
    rw [rowSlice_singleton lines x0.toNat (by omega)]
    simp only [List.nil_append, Nat.cast_zero, add_zero]
    rw [getLineStr_nonneg lines x0 h0]
    rfl
  | succ n ih =>
    intro x0 h0 hlt
    rw [midRows_succ]
    have hx1 : x0.toNat + (n + 1) + 1 = (x0.toNat + 1) + n + 1 := by omega
    rw [hx1]
    rw [rowSlice_cons lines x0.toNat ((x0.toNat + 1) + n + 1) (by omega) (by omega)]
    have hrest : rowSlice lines (x0.toNat + 1) (x0.toNat + 1 + n + 1) ≠ [] := by
      intro hctr
      have := congrArg List.length hctr
      rw [rowSlice_length] at this
      simp only [List.length_nil] at this
      omega
    rw [joinNL_cons_of_ne_nil _ _ hrest]
    rw [getLineStr_nonneg lines x0 h0]
    have hih := ih (x0 + 1) (by omega) (by push_cast at hlt ⊢; omega)
    rw [show (x0 + 1).toNat = x0.toNat + 1 from by omega] at hih
    rw [show x0 + 1 + (n : Int) = x0 + ((n + 1 : Nat) : Int) from by push_cast; ring] at hih
    rw [List.append_assoc, List.append_assoc, List.singleton_append, hih]

theorem horizontallyMaximized_oriented (s : Selection) (d : TextDocument)
    (h : s.isOriented = true) :
    s.horizontallyMaximized d =
      ⟨⟨s.head.x, 0⟩, ⟨s.tail.x, d.getNumColumns s.tail.x⟩⟩ := by
  unfold Selection.horizontallyMaximized
  rw [h]
  rw [if_pos rfl]

theorem content_maximal (d : TextDocument) (a b : Int)
    (h0 : 0 ≤ a) (hab : a ≤ b) (hb : b < (d.lines.length : Int)) :
    d.getSelectionContent ⟨⟨a, 0⟩, ⟨b, d.getNumColumns b⟩⟩ =
      joinNL (rowSlice d.lines a.toNat (b.toNat + 1)) := by
  have hor : (Selection.mk ⟨a, 0⟩ ⟨b, d.getNumColumns b⟩).isOriented = true := by
    rw [Selection.isOriented_iff]
    dsimp only
    have := d.getNumColumns_nonneg b
    omega
  unfold TextDocument.getSelectionContent
  rw [Selection.oriented_of_isOriented hor]
  dsimp only
  by_cases hsl : a = b
  · subst hsl
    rw [if_pos (by simp [Selection.isSingleLine])]
    rw [rowSlice_singleton d.lines a.toNat (by omega)]
    show substr (getLineStr d.lines a) 0 (d.getNumColumns a) = joinNL [d.lines.getD a.toNat []]
    unfold substr TextDocument.getNumColumns
    rw [getLineStr_nonneg d.lines a h0]
    simp only [Int.toNat_zero, List.drop_zero, Int.toNat_natCast]
    rw [List.take_length]
    rfl
  · rw [if_neg (by simp [Selection.isSingleLine]; omega)]
    have hmid := midRows_join d.lines (b - a - 1).toNat (a + 1) (by omega)
      (by omega)
    rw [show a + 1 + (((b - a - 1).toNat : Nat) : Int) = b from by omega] at hmid
    rw [show (a + 1).toNat = a.toNat + 1 from by omega] at hmid
    rw [show a.toNat + 1 + (b - a - 1).toNat + 1 = b.toNat + 1 from by omega] at hmid
    rw [rowSlice_cons d.lines a.toNat (b.toNat + 1) (by omega) (by omega)]
    have hne : rowSlice d.lines (a.toNat + 1) (b.toNat + 1) ≠ [] := by
      intro hctr
      have hlen := congrArg List.length hctr
      rw [rowSlice_length] at hlen
      simp only [List.length_nil] at hlen
      omega
    rw [joinNL_cons_of_ne_nil _ _ hne]
    rw [← hmid]
    have hA : substrFrom (getLineStr d.lines a) 0 = d.lines.getD a.toNat [] := by
      unfold substrFrom
      rw [getLineStr_nonneg d.lines a h0]
      simp
    have hB : substr (getLineStr d.lines b) 0 (d.getNumColumns b) = getLineStr d.lines b := by
      unfold substr TextDocument.getNumColumns
      simp
    rw [hA, hB]
    rw [List.append_assoc, List.append_assoc, List.singleton_append]

/-- The last character of a string is none of the three special key codes. -/
def noSpecialLast (cs : List Char) : Prop :=
  lastChar cs ≠ tabKeyCode ∧ lastChar cs ≠ backspaceKeyCode ∧ lastChar cs ≠ deleteKeyCode

instance (cs : List Char) : Decidable (noSpecialLast cs) := by
  unfold noSpecialLast
  infer_instance

theorem accounting_id (tr : Transaction) (d : TextDocument)
    (h : noSpecialLast tr.content) :
    tr.accountingForSpecialCharacters d = tr := by
  obtain ⟨h1, h2, h3⟩ := h
  unfold Transaction.accountingForSpecialCharacters
  dsimp only
  rw [if_neg h2, if_neg h3, if_neg h1]

/-- The selection spanning the content shaped like `C` anchored at `p`. -/
def shapeAt (C : List Char) (p : Point) : Selection :=
  ⟨p, ⟨p.x + contentRowSpan C,
    if contentRowSpan C = 0 then p.y + contentLastLen C else contentLastLen C⟩⟩

theorem shapeAt_eq (C : List Char) (p : Point) (hx : 0 ≤ p.x) (hy : 0 ≤ p.y) :
    (Selection.ofContent C).startingFrom p = shapeAt C p :=
  startingFrom_ofContent C p hx hy

theorem shapeAt_oriented (C : List Char) (p : Point) :
    (shapeAt C p).isOriented = true := by
  rw [Selection.isOriented_iff]
  unfold shapeAt
  dsimp only
  have h1 := contentRowSpan_nonneg C
  have h2 := contentLastLen_nonneg C
  rcases eq_or_lt_of_le h1 with h | h
  · right
    constructor
    · omega
    · rw [if_pos h.symm]
      omega
  · left
    omega

/-- The canonical description of one `fulfill` call on a normalization-free
transaction with an oriented, row/head-column-in-bounds selection: write
`a b h t` for the selection corners, `L` for the joined text of rows
`[a, b]`, and `j` for the end offset of the selected text inside `L`; then the
reciprocal is the shape of the inserted content anchored at `(a,h)` carrying
the removed text `L[h:j]`, the line store is spliced with `splitNL` of
`L[0:h] ++ content ++ L[j:]`, and every stored selection is pulled by the
selection and pushed by the shape. -/
theorem fulfill_eq (d : TextDocument) (tr : Transaction)
    (hnorm : tr.accountingForSpecialCharacters d = tr)
    (hor : tr.selection.isOriented = true)
    (ha : 0 ≤ tr.selection.head.x)
    (hb : tr.selection.tail.x < (d.lines.length : Int))
    (hh : 0 ≤ tr.selection.head.y)
    (hMl : (substr (joinNL (rowSlice d.lines tr.selection.head.x.toNat
        (tr.selection.tail.x.toNat + 1))) 0 tr.selection.head.y ++ tr.content ++
      substrFrom (joinNL (rowSlice d.lines tr.selection.head.x.toNat
        (tr.selection.tail.x.toNat + 1)))
        (lastIndexOfNL (joinNL (rowSlice d.lines tr.selection.head.x.toNat
          (tr.selection.tail.x.toNat + 1))) +
          tr.selection.tail.y + 1)).getLast? ≠ some '\n') :
    d.fulfill tr =
      (let a := tr.selection.head.x
       let b := tr.selection.tail.x
       let h := tr.selection.head.y
       let t := tr.selection.tail.y
       let L := joinNL (rowSlice d.lines a.toNat (b.toNat + 1))
       let j := lastIndexOfNL L + t + 1
       let M := substr L 0 h ++ tr.content ++ substrFrom L j
       ({ selection := shapeAt tr.content ⟨a, h⟩
          content := substr L h j
          direction := tr.direction.flip },
        { lines := d.lines.take a.toNat ++ splitNL M ++ d.lines.drop (b.toNat + 1)
          selections := d.selections.map
            (fun ex => (ex.pullBy tr.selection).pushBy (shapeAt tr.content ⟨a, h⟩)) })) := by
  have hab : tr.selection.head.x ≤ tr.selection.tail.x := by
    rw [Selection.isOriented_iff] at hor
    omega
  unfold TextDocument.fulfill
  rw [hnorm]
  dsimp only
  rw [Selection.oriented_of_isOriented hor]
  rw [horizontallyMaximized_oriented _ _ hor]
  rw [content_maximal d tr.selection.head.x tr.selection.tail.x ha hab hb]
  rw [removeRange_spec d.lines tr.selection.head.x tr.selection.tail.x ha hab hb]
  rw [shapeAt_eq tr.content tr.selection.head ha hh]
  rw [insert_phase_splice _ tr.selection.head.x _ ha
    (by rw [List.length_append, List.length_take, List.length_drop]; push_cast; omega)
    hMl]
  rw [show (d.lines.take tr.selection.head.x.toNat ++
      d.lines.drop (tr.selection.tail.x.toNat + 1)).take tr.selection.head.x.toNat =
    d.lines.take tr.selection.head.x.toNat from by
      rw [List.take_append_eq_append_take]
      rw [List.take_of_length_le (by rw [List.length_take]; omega)]
      rw [List.length_take]
      rw [show tr.selection.head.x.toNat -
        min tr.selection.head.x.toNat d.lines.length = 0 from by omega]
      simp]
  rw [show (d.lines.take tr.selection.head.x.toNat ++
      d.lines.drop (tr.selection.tail.x.toNat + 1)).drop tr.selection.head.x.toNat =
    d.lines.drop (tr.selection.tail.x.toNat + 1) from by
      rw [List.drop_append_eq_append_drop]
      rw [List.drop_of_length_le (by rw [List.length_take]; omega)]
      rw [List.length_take]
      rw [show tr.selection.head.x.toNat -
        min tr.selection.head.x.toNat d.lines.length = 0 from by omega]
      simp]

theorem joinNL_take_head (l : List Char) (ls : List (List Char)) (n : Nat)
    (h : n ≤ l.length) : (joinNL (l :: ls)).take n = l.take n := by
  rcases ls with _ | ⟨l', ls⟩
  · rfl
  · rw [joinNL_cons_cons]
    rw [List.take_append_of_le_length h]

theorem joinNL_head_le_length (l : List Char) (ls : List (List Char)) :
    l.length ≤ (joinNL (l :: ls)).length := by
  rcases ls with _ | ⟨l', ls⟩
  · exact le_rfl
  · rw [joinNL_cons_cons]
    rw [List.length_append]
    omega

theorem rowSlice_subset (xs : List (List Char)) (lo hi : Nat) :
    rowSlice xs lo hi ⊆ xs := by
  unfold rowSlice
  intro x hx
  exact List.take_subset hi xs (List.drop_subset lo (xs.take hi) hx)

theorem getD_mem (xs : List (List Char)) (k : Nat) (h : k < xs.length) :
    xs.getD k [] ∈ xs := by
  rw [List.getD_eq_getElem?_getD, List.getElem?_eq_getElem h]
  exact List.getElem_mem h

theorem nlfree_take (l : List Char) (n : Nat) (h : '\n' ∉ l) : '\n' ∉ l.take n :=
  fun hmem => h (List.take_subset n l hmem)

theorem nlfree_drop (l : List Char) (n : Nat) (h : '\n' ∉ l) : '\n' ∉ l.drop n :=
  fun hmem => h (List.drop_subset n l hmem)

theorem count_nl_zero (l : List Char) (h : '\n' ∉ l) : l.count '\n' = 0 :=
  List.count_eq_zero.mpr h

theorem rowSlice_nlfree (d : TextDocument) (hNL : ∀ l ∈ d.lines, '\n' ∉ l)
    (lo hi : Nat) : ∀ l ∈ rowSlice d.lines lo hi, '\n' ∉ l :=
  fun l hl => hNL l (rowSlice_subset d.lines lo hi hl)

theorem line_nlfree (d : TextDocument) (hNL : ∀ l ∈ d.lines, '\n' ∉ l)
    (i : Int) (h0 : 0 ≤ i) (hlt : i < (d.lines.length : Int)) :
    '\n' ∉ getLineStr d.lines i := by
  rw [getLineStr_nonneg d.lines i h0]
  exact hNL _ (getD_mem d.lines i.toNat (by omega))

theorem L_facts (d : TextDocument) (a b h t : Int)
    (hNL : ∀ l ∈ d.lines, '\n' ∉ l)
    (ha : 0 ≤ a) (hab : a ≤ b) (hb : b < (d.lines.length : Int))
    (hh : 0 ≤ h) (hha : h ≤ ((getLineStr d.lines a).length : Int))
    (ht : 0 ≤ t) (htb : t ≤ ((getLineStr d.lines b).length : Int))
    (hsl : a = b → h ≤ t) :
    ∀ L j : _, L = joinNL (rowSlice d.lines a.toNat (b.toNat + 1)) →
      j = lastIndexOfNL L + t + 1 →
      h ≤ j ∧ j ≤ (L.length : Int) ∧
      substr L 0 h = (getLineStr d.lines a).take h.toNat ∧
      substrFrom L j = (getLineStr d.lines b).drop t.toNat ∧
      shapeAt (substr L h j) ⟨a, h⟩ = ⟨⟨a, h⟩, ⟨b, t⟩⟩ := by
  intro L j hL hj
  have hbn : b.toNat < d.lines.length := by omega
  have hline_a : getLineStr d.lines a = d.lines.getD a.toNat [] :=
    getLineStr_nonneg d.lines a ha
  have hline_b : getLineStr d.lines b = d.lines.getD b.toNat [] :=
    getLineStr_nonneg d.lines b (by omega)
  have hfree_a : '\n' ∉ getLineStr d.lines a := line_nlfree d hNL a ha (by omega)
  have hfree_b : '\n' ∉ getLineStr d.lines b := line_nlfree d hNL b (by omega) hb
  have hfa : ((getLineStr d.lines a).length : Int) =
      ((d.lines.getD a.toNat []).length : Int) := by rw [hline_a]
  have hfb : ((getLineStr d.lines b).length : Int) =
      ((d.lines.getD b.toNat []).length : Int) := by rw [hline_b]
  rcases eq_or_lt_of_le hab with heq | hlt
  · -- single-line: L is row a itself
    subst heq
    have hmid : rowSlice d.lines a.toNat (a.toNat + 1) = [d.lines.getD a.toNat []] :=
      rowSlice_singleton d.lines a.toNat (by omega)
    rw [hmid] at hL
    have hLa : L = getLineStr d.lines a := by
      rw [hL, hline_a]
      rfl
    have hnl : lastIndexOfNL L = -1 := by
      rw [hLa]
      exact lastIndexOfNL_of_not_mem _ hfree_a
    have hjt : j = t := by omega
    rw [hjt]
    refine ⟨hsl rfl, by rw [hLa]; omega, ?_, ?_, ?_⟩
    · unfold substr
      rw [hLa]
      simp only [Int.toNat_zero, List.drop_zero]
    · unfold substrFrom
      rw [hLa]
    · have hrem : substr L h t = ((getLineStr d.lines a).take t.toNat).drop h.toNat := by
        unfold substr
        rw [hLa]
      have hremfree : '\n' ∉ substr L h t := by
        rw [hrem]
        exact nlfree_drop _ _ (nlfree_take _ _ hfree_a)
      have hcount : (substr L h t).count '\n' = 0 := count_nl_zero _ hremfree
      have hlen : (substr L h t).length = t.toNat - h.toNat := by
        rw [hrem]
        rw [List.length_drop, List.length_take]
        omega
      have hrho : contentRowSpan (substr L h t) = 0 := by
        unfold contentRowSpan
        rw [hcount]
        rfl
      have hlam : contentLastLen (substr L h t) = t - h := by
        unfold contentLastLen
        rw [lastIndexOfNL_of_not_mem _ hremfree, hlen]
        rw [if_neg (by omega)]
        omega
      unfold shapeAt
      dsimp only
      rw [hrho, hlam, if_pos rfl]
      refine congrArg₂ Selection.mk rfl (congrArg₂ Point.mk (by omega) (by omega))
  · -- multi-line: L = U ++ '\n' :: row b
    have hslice : rowSlice d.lines a.toNat (b.toNat + 1) =
        rowSlice d.lines a.toNat b.toNat ++ [d.lines.getD b.toNat []] :=
      rowSlice_concat d.lines a.toNat b.toNat (by omega) hbn
    have hUne : rowSlice d.lines a.toNat b.toNat ≠ [] := by
      intro hctr
      have hlen := congrArg List.length hctr
      rw [rowSlice_length] at hlen
      simp only [List.length_nil] at hlen
      omega
    have hLU : L = joinNL (rowSlice d.lines a.toNat b.toNat) ++ '\n' ::
        d.lines.getD b.toNat [] := by
      rw [hL, hslice]
      exact joinNL_append_last _ _ hUne
    have hUcons : rowSlice d.lines a.toNat b.toNat =
        d.lines.getD a.toNat [] :: rowSlice d.lines (a.toNat + 1) b.toNat :=
      rowSlice_cons d.lines a.toNat b.toNat (by omega) (by omega)
    have hUhead : h.toNat ≤ (d.lines.getD a.toNat []).length := by omega
    have hUlen : (d.lines.getD a.toNat []).length ≤
        (joinNL (rowSlice d.lines a.toNat b.toNat)).length := by
      rw [hUcons]
      exact joinNL_head_le_length _ _
    have hinner : lastIndexOfNL ('\n' :: d.lines.getD b.toNat []) = 0 := by
      rw [lastIndexOfNL_cons, lastIndexOfNL_of_not_mem _ (hline_b ▸ hfree_b)]
      simp
    have hnlL : lastIndexOfNL L =
        ((joinNL (rowSlice d.lines a.toNat b.toNat)).length : Int) := by
      rw [hLU, lastIndexOfNL_append, hinner]
      rw [if_pos (by norm_num)]
      omega
    have hjval : j = ((joinNL (rowSlice d.lines a.toNat b.toNat)).length : Int) + 1 + t := by
      omega
    have hLlen : (L.length : Int) =
        ((joinNL (rowSlice d.lines a.toNat b.toNat)).length : Int) + 1 +
          ((d.lines.getD b.toNat []).length : Int) := by
      rw [hLU]
      simp only [List.length_append, List.length_cons]
      push_cast
      ring
    refine ⟨by omega, by omega, ?_, ?_, ?_⟩
    · unfold substr
      simp only [Int.toNat_zero, List.drop_zero]
      rw [hLU]
      rw [List.take_append_of_le_length (by omega)]
      rw [hUcons, joinNL_take_head _ _ _ hUhead]
      rw [hline_a]
    · unfold substrFrom
      rw [hLU]
      rw [List.drop_append_eq_append_drop]
      rw [List.drop_eq_nil_of_le (by omega)]
      have hdiff : j.toNat - (joinNL (rowSlice d.lines a.toNat b.toNat)).length =
          t.toNat + 1 := by omega
      rw [hdiff]
      rw [List.nil_append, List.drop_succ_cons, hline_b]
    · -- the removed text has the shape of the original selection
      have htake : L.take j.toNat = joinNL (rowSlice d.lines a.toNat b.toNat) ++ '\n' ::
          (d.lines.getD b.toNat []).take t.toNat := by
        rw [hLU]
        rw [List.take_append_eq_append_take]
        rw [List.take_of_length_le (by omega)]
        have hdiff : j.toNat - (joinNL (rowSlice d.lines a.toNat b.toNat)).length =
            t.toNat + 1 := by omega
        rw [hdiff]
        rw [List.take_succ_cons]
      have hrem : substr L h j = (joinNL (rowSlice d.lines a.toNat b.toNat)).drop h.toNat ++
          '\n' :: (d.lines.getD b.toNat []).take t.toNat := by
        unfold substr
        rw [htake]
        rw [List.drop_append_of_le_length (by omega)]
      have htclamp : ((d.lines.getD b.toNat []).take t.toNat).length = t.toNat := by
        rw [List.length_take]
        omega
      have hUfree : ∀ l ∈ rowSlice d.lines a.toNat b.toNat, '\n' ∉ l :=
        rowSlice_nlfree d hNL _ _
      have hUcount : (joinNL (rowSlice d.lines a.toNat b.toNat)).count '\n' =
          (rowSlice d.lines a.toNat b.toNat).length - 1 :=
        count_joinNL _ hUne hUfree
      have hUslen : (rowSlice d.lines a.toNat b.toNat).length = b.toNat - a.toNat := by
        rw [rowSlice_length]
        omega
      have hprefix_count :
          ((joinNL (rowSlice d.lines a.toNat b.toNat)).take h.toNat).count '\n' = 0 := by
        rw [hUcons, joinNL_take_head _ _ _ hUhead]
        exact count_nl_zero _ (nlfree_take _ _ (hline_a ▸ hfree_a))
      have hdrop_count :
          ((joinNL (rowSlice d.lines a.toNat b.toNat)).drop h.toNat).count '\n' =
            b.toNat - a.toNat - 1 := by
        have hsplit := List.take_append_drop h.toNat (joinNL (rowSlice d.lines a.toNat b.toNat))
        have hc := congrArg (List.count '\n') hsplit
        rw [List.count_append] at hc
        rw [hprefix_count] at hc
        omega
      have hcnl : ('\n' :: (d.lines.getD b.toNat []).take t.toNat).count '\n' = 1 := by
        rw [List.count_cons]
        rw [count_nl_zero _ (nlfree_take _ _ (hline_b ▸ hfree_b))]
        simp
      have hcount : (substr L h j).count '\n' = b.toNat - a.toNat := by
        rw [hrem]
        rw [List.count_append, hdrop_count, hcnl]
        omega
      have hinner2 : lastIndexOfNL ('\n' :: (d.lines.getD b.toNat []).take t.toNat) = 0 := by
        rw [lastIndexOfNL_cons,
          lastIndexOfNL_of_not_mem _ (nlfree_take _ _ (hline_b ▸ hfree_b))]
        simp
      have hlastNL : lastIndexOfNL (substr L h j) =
          (((joinNL (rowSlice d.lines a.toNat b.toNat)).drop h.toNat).length : Int) := by
        rw [hrem, lastIndexOfNL_append, hinner2]
        rw [if_pos (by norm_num)]
        omega
      have hremlen : ((substr L h j).length : Int) =
          (((joinNL (rowSlice d.lines a.toNat b.toNat)).drop h.toNat).length : Int) + 1 +
            t := by
        rw [hrem]
        simp only [List.length_append, List.length_cons]
        rw [htclamp]
        push_cast
        omega
      have hrho : contentRowSpan (substr L h j) = b - a := by
        unfold contentRowSpan
        rw [hcount]
        omega
      have hlam : contentLastLen (substr L h j) = t := by
        unfold contentLastLen
        rw [hlastNL]
        rw [if_pos (by positivity)]
        omega
      unfold shapeAt
      dsimp only
      rw [hrho, hlam]
      rw [if_neg (by omega)]
      refine congrArg₂ Selection.mk rfl (congrArg₂ Point.mk (by omega) rfl)

theorem splice_take (P X Q : List (List Char)) :
    (P ++ X ++ Q).take P.length = P := by
  rw [List.append_assoc]
  exact List.take_left P (X ++ Q)

theorem splice_drop (P X Q : List (List Char)) :
    (P ++ X ++ Q).drop (P.length + X.length) = Q := by
  rw [List.append_assoc]
  rw [List.drop_append_eq_append_drop]
  rw [List.drop_eq_nil_of_le (by omega)]
  rw [List.nil_append]
  rw [List.drop_append_eq_append_drop]
  rw [List.drop_eq_nil_of_le (by omega)]
  rw [List.nil_append]
  rw [show P.length + X.length - P.length - X.length = 0 from by omega]
  rw [List.drop_zero]

end Mcl
